import Mathlib

/-!
# Verification of the wechat-dedup duplicate-file cleaner

Shallow embedding of the two Python source variants (`dedup.py` at the
repository root and `wechat-dedup/scripts/dedup.py`) and proofs about the
duplicate-detection core, keeper selection, quarantine moving, the
confirmation gate and report generation.

Filesystem reads (`stat`, `open`/`read`, birth/modification times) are
embedded as oracle fields of a `FileRec`: each field records the outcome the
corresponding system call would produce for that file during the run, with
`none` standing for the `IOError`/`OSError` branch the Python code catches.
-/

set_option autoImplicit false

namespace WechatDedup

/-- Outcome of `filepath.stat()` as used by `get_creation_time`:
`st_birthtime` is present only on platforms that report a birth time
(`getattr(stat, 'st_birthtime', stat.st_mtime)` falls back to `st_mtime`). -/
structure StatTimes where
  birthtime : Option Int
  mtime : Int
deriving DecidableEq, Repr

/-- A scanned file.  `path` abstracts the absolute path (file identity);
`size` is the outcome of `doc.stat().st_size` (`none` = the stat raised);
`hash` is the outcome of `get_file_hash` (`none` = open/read raised);
`times` is the outcome of the separate `stat` in `get_creation_time`
(`none` = that stat raised, which Python turns into `float('inf')`). -/
structure FileRec where
  path : Nat
  size : Option Nat
  hash : Option Nat
  times : Option StatTimes
deriving DecidableEq, Repr

/-- `get_file_hash`: streams the file in 8192-byte chunks through MD5 and
returns the hex digest, or `None` on any `IOError`/`OSError`.  In the
embedding the digest (or its absence) is the `hash` oracle field; the
function never raises, it totally returns `some` digest or `none`. -/
def get_file_hash (f : FileRec) : Option Nat :=
  f.hash

/-- `get_creation_time`: `st_birthtime` when available, else `st_mtime`;
`float('inf')` when the stat raises.  `none` plays the role of `inf`. -/
def get_creation_time (f : FileRec) : Option Int :=
  match f.times with
  | none => none
  | some t => some (t.birthtime.getD t.mtime)

/-- Comparison of creation times, with `none` (= `float('inf')`) as the
largest element, mirroring IEEE `inf` ordering used by Python's `sorted`. -/
def timeLE : Option Int → Option Int → Bool
  | _, none => true
  | none, some _ => false
  | some a, some b => a ≤ b

theorem timeLE_refl (a : Option Int) : timeLE a a = true := by
  cases a <;> simp [timeLE]

theorem timeLE_trans {a b c : Option Int} (h1 : timeLE a b = true)
    (h2 : timeLE b c = true) : timeLE a c = true := by
  cases a <;> cases b <;> cases c <;> simp_all [timeLE] <;> omega

theorem timeLE_total (a b : Option Int) : timeLE a b = true ∨ timeLE b a = true := by
  cases a <;> cases b <;> simp [timeLE] <;> omega

/-! ## Insertion-ordered dictionaries

Python's `defaultdict(list)` keeps keys in first-insertion order and appends
each new value at the end of its bucket.  We embed it as an association list
of `(key, bucket)` pairs with exactly that behaviour. -/

/-- `d[k].append(v)` on an insertion-ordered dict-of-lists. -/
def insertAssoc (k : Nat) (v : FileRec) :
    List (Nat × List FileRec) → List (Nat × List FileRec)
  | [] => [(k, [v])]
  | (k', vs) :: rest =>
    if k' = k then (k', vs ++ [v]) :: rest else (k', vs) :: insertAssoc k v rest

/-- Bucket lookup (`d[k]`, empty when absent). -/
def assocFind (k : Nat) : List (Nat × List FileRec) → List FileRec
  | [] => []
  | (k', vs) :: rest => if k' = k then vs else assocFind k rest

theorem assocFind_insertAssoc (k k' : Nat) (v : FileRec)
    (l : List (Nat × List FileRec)) :
    assocFind k (insertAssoc k' v l) =
      if k' = k then assocFind k l ++ [v] else assocFind k l := by
  induction l with
  | nil => by_cases h : k' = k <;> simp [insertAssoc, assocFind, h]
  | cons p rest ih =>
    obtain ⟨a, vs⟩ := p
    by_cases hak : a = k' <;> by_cases hk : k' = k <;>
      simp [insertAssoc, assocFind, hak, hk, ih] <;> simp_all [assocFind]

theorem mem_assocFind_insertAssoc (a : FileRec) (k k' : Nat) (v : FileRec)
    (l : List (Nat × List FileRec)) :
    a ∈ assocFind k (insertAssoc k' v l) ↔
      a ∈ assocFind k l ∨ (k' = k ∧ a = v) := by
  rw [assocFind_insertAssoc]
  by_cases h : k' = k <;> simp [h]

/-- Every pair reachable in `insertAssoc k v l` either was in `l`, is the
fresh bucket `(k, [v])`, or extends an old bucket of key `k` by `v`. -/
theorem mem_insertAssoc (p : Nat × List FileRec) (k : Nat) (v : FileRec)
    (l : List (Nat × List FileRec)) (hp : p ∈ insertAssoc k v l) :
    p ∈ l ∨ p = (k, [v]) ∨ ∃ vs, (k, vs) ∈ l ∧ p = (k, vs ++ [v]) := by
  induction l with
  | nil =>
    simp [insertAssoc] at hp
    simp [hp]
  | cons q rest ih =>
    obtain ⟨a, vs⟩ := q
    by_cases hak : a = k
    · subst hak
      simp [insertAssoc] at hp
      rcases hp with hp | hp
      · right; right; exact ⟨vs, by simp, hp⟩
      · left; simp [hp]
    · simp [insertAssoc, hak] at hp
      rcases hp with hp | hp
      · left; simp [hp]
      · rcases ih hp with h | h | ⟨ws, hws, hpw⟩
        · left; simp [h]
        · right; left; exact h
        · right; right; exact ⟨ws, by simp [hws], hpw⟩

/-- If a bucket for `k` is nonempty then the pair `(k, that bucket)` is an
entry of the association list. -/
theorem assocFind_mem_self (k : Nat) (a : FileRec)
    (l : List (Nat × List FileRec)) (ha : a ∈ assocFind k l) :
    (k, assocFind k l) ∈ l := by
  induction l with
  | nil => simp [assocFind] at ha
  | cons p rest ih =>
    obtain ⟨a', vs⟩ := p
    by_cases h : a' = k
    · subst h
      simp only [assocFind, if_pos rfl] at ha ⊢
      exact List.mem_cons_self _ _
    · simp only [assocFind, if_neg h] at ha ⊢
      exact List.mem_cons_of_mem _ (ih ha)

namespace dedup1

/-! ## `dedup.py` (repository root), lines 65–104: `find_duplicates` and
`select_keeper`. -/

/-- Body of the first loop of `find_duplicates`: on a successful
`doc.stat()` append `doc` to `size_groups[st_size]`; on `IOError`/`OSError`
`continue`. -/
def sizeStep (acc : List (Nat × List FileRec)) (doc : FileRec) :
    List (Nat × List FileRec) :=
  match doc.size with
  | none => acc
  | some s => insertAssoc s doc acc

/-- First phase of `find_duplicates`: bucket by exact byte size. -/
def size_groups (documents : List FileRec) : List (Nat × List FileRec) :=
  documents.foldl sizeStep []

/-- Body of the second loop: append `filepath` to
`hash_groups[file_hash]` when `get_file_hash` returned a digest. -/
def hashStep (acc : List (Nat × List FileRec)) (f : FileRec) :
    List (Nat × List FileRec) :=
  match get_file_hash f with
  | none => acc
  | some h => insertAssoc h f acc

/-- Second phase: hash every member of each size bucket having at least two
members, into one global digest-keyed dict. -/
def hash_groups (documents : List FileRec) : List (Nat × List FileRec) :=
  (size_groups documents).foldl
    (fun acc p => if p.2.length < 2 then acc else p.2.foldl hashStep acc) []

/-- `find_duplicates`: keep the digest buckets with `len(files) >= 2`. -/
def find_duplicates (documents : List FileRec) : List (Nat × List FileRec) :=
  (hash_groups documents).filter (fun p => 2 ≤ p.2.length)

theorem mem_assocFind_foldl_sizeStep (docs : List FileRec)
    (acc : List (Nat × List FileRec)) (a : FileRec) (s : Nat) :
    a ∈ assocFind s (docs.foldl sizeStep acc) ↔
      a ∈ assocFind s acc ∨ (a ∈ docs ∧ a.size = some s) := by
  induction docs generalizing acc with
  | nil => simp
  | cons d ds ih =>
    rw [List.foldl_cons, ih]
    rcases hd : d.size with _ | s'
    · simp only [sizeStep, hd, List.mem_cons]
      constructor
      · rintro (h | ⟨h1, h2⟩)
        · exact Or.inl h
        · exact Or.inr ⟨Or.inr h1, h2⟩
      · rintro (h | ⟨h1 | h1, h2⟩)
        · exact Or.inl h
        · subst h1; rw [hd] at h2; cases h2
        · exact Or.inr ⟨h1, h2⟩
    · simp only [sizeStep, hd, mem_assocFind_insertAssoc, List.mem_cons]
      constructor
      · rintro ((h | ⟨h1, h2⟩) | ⟨h1, h2⟩)
        · exact Or.inl h
        · subst h2; subst h1; exact Or.inr ⟨Or.inl rfl, hd⟩
        · exact Or.inr ⟨Or.inr h1, h2⟩
      · rintro (h | ⟨h1 | h1, h2⟩)
        · exact Or.inl (Or.inl h)
        · subst h1
          rw [hd] at h2
          exact Or.inl (Or.inr ⟨(Option.some_inj.mp h2), rfl⟩)
        · exact Or.inr ⟨h1, h2⟩

/-- Every file in a size bucket came from the input and has that size. -/
theorem size_groups_inv (docs : List FileRec) :
    ∀ p ∈ size_groups docs, ∀ x ∈ p.2, x ∈ docs ∧ x.size = some p.1 := by
  unfold size_groups
  suffices h : ∀ (acc : List (Nat × List FileRec)),
      (∀ p ∈ acc, ∀ x ∈ p.2, x ∈ docs ∧ x.size = some p.1) →
      ∀ p ∈ docs.foldl sizeStep acc, ∀ x ∈ p.2, x ∈ docs ∧ x.size = some p.1 by
    exact h [] (by simp)
  suffices hgen : ∀ (l : List FileRec), l ⊆ docs →
      ∀ (acc : List (Nat × List FileRec)),
      (∀ p ∈ acc, ∀ x ∈ p.2, x ∈ docs ∧ x.size = some p.1) →
      ∀ p ∈ l.foldl sizeStep acc, ∀ x ∈ p.2, x ∈ docs ∧ x.size = some p.1 by
    intro acc hacc
    exact hgen docs (fun _ h => h) acc hacc
  intro l hl
  induction l with
  | nil => intro acc hacc; simpa using hacc
  | cons d ds ih =>
    intro acc hacc
    rw [List.foldl_cons]
    refine ih (fun _ h => hl (List.mem_cons_of_mem _ h)) _ ?_
    rcases hd : d.size with _ | s'
    · simpa [sizeStep, hd] using hacc
    · intro p hp x hx
      rcases mem_insertAssoc p s' d acc
          (by simpa [sizeStep, hd] using hp) with h | h | ⟨vs, hvs, hpeq⟩
      · exact hacc p h x hx
      · subst h
        simp only [List.mem_singleton] at hx
        subst hx
        exact ⟨hl (List.mem_cons_self _ _), hd⟩
      · subst hpeq
        simp only [List.mem_append, List.mem_singleton] at hx
        rcases hx with hx | hx
        · exact hacc _ hvs x hx
        · subst hx
          exact ⟨hl (List.mem_cons_self _ _), hd⟩

theorem mem_assocFind_foldl_hashStep (files : List FileRec)
    (acc : List (Nat × List FileRec)) (a : FileRec) (h : Nat) :
    a ∈ assocFind h (files.foldl hashStep acc) ↔
      a ∈ assocFind h acc ∨ (a ∈ files ∧ a.hash = some h) := by
  induction files generalizing acc with
  | nil => simp
  | cons f fs ih =>
    rw [List.foldl_cons, ih]
    rcases hf : f.hash with _ | h'
    · simp only [hashStep, get_file_hash, hf, List.mem_cons]
      constructor
      · rintro (hh | ⟨h1, h2⟩)
        · exact Or.inl hh
        · exact Or.inr ⟨Or.inr h1, h2⟩
      · rintro (hh | ⟨h1 | h1, h2⟩)
        · exact Or.inl hh
        · subst h1; rw [hf] at h2; cases h2
        · exact Or.inr ⟨h1, h2⟩
    · simp only [hashStep, get_file_hash, hf, mem_assocFind_insertAssoc,
        List.mem_cons]
      constructor
      · rintro ((hh | ⟨h1, h2⟩) | ⟨h1, h2⟩)
        · exact Or.inl hh
        · subst h2; subst h1; exact Or.inr ⟨Or.inl rfl, hf⟩
        · exact Or.inr ⟨Or.inr h1, h2⟩
      · rintro (hh | ⟨h1 | h1, h2⟩)
        · exact Or.inl (Or.inl hh)
        · subst h1
          rw [hf] at h2
          exact Or.inl (Or.inr ⟨Option.some_inj.mp h2, rfl⟩)
        · exact Or.inr ⟨h1, h2⟩

theorem mem_assocFind_hash_groups (docs : List FileRec) (a : FileRec) (h : Nat) :
    a ∈ assocFind h (hash_groups docs) ↔
      ∃ p ∈ size_groups docs, ¬ p.2.length < 2 ∧ a ∈ p.2 ∧ a.hash = some h := by
  unfold hash_groups
  generalize size_groups docs = sgs
  suffices hgen : ∀ (l : List (Nat × List FileRec))
      (acc : List (Nat × List FileRec)),
      a ∈ assocFind h (l.foldl
        (fun acc p => if p.2.length < 2 then acc else p.2.foldl hashStep acc) acc) ↔
      a ∈ assocFind h acc ∨
        ∃ p ∈ l, ¬ p.2.length < 2 ∧ a ∈ p.2 ∧ a.hash = some h by
    rw [hgen sgs []]
    simp [assocFind]
  intro l
  induction l with
  | nil => simp
  | cons p ps ih =>
    intro acc
    rw [List.foldl_cons, ih]
    by_cases hlen : p.2.length < 2
    · simp only [if_pos hlen, List.mem_cons]
      constructor
      · rintro (hh | ⟨q, hq, hx⟩)
        · exact Or.inl hh
        · exact Or.inr ⟨q, Or.inr hq, hx⟩
      · rintro (hh | ⟨q, hq | hq, hx⟩)
        · exact Or.inl hh
        · subst hq; exact absurd hlen hx.1
        · exact Or.inr ⟨q, hq, hx⟩
    · simp only [if_neg hlen, mem_assocFind_foldl_hashStep, List.mem_cons]
      constructor
      · rintro ((hh | ⟨h1, h2⟩) | ⟨q, hq, hx⟩)
        · exact Or.inl hh
        · exact Or.inr ⟨p, Or.inl rfl, hlen, h1, h2⟩
        · exact Or.inr ⟨q, Or.inr hq, hx⟩
      · rintro (hh | ⟨q, hq | hq, hx⟩)
        · exact Or.inl (Or.inl hh)
        · subst hq; exact Or.inl (Or.inr ⟨hx.2.1, hx.2.2⟩)
        · exact Or.inr ⟨q, hq, hx⟩

/-- Every file in a digest bucket has that digest and sits in some size
bucket of the input with at least two members. -/
theorem hash_groups_inv (docs : List FileRec) :
    ∀ q ∈ hash_groups docs, ∀ x ∈ q.2,
      x.hash = some q.1 ∧
      ∃ p ∈ size_groups docs, x ∈ p.2 ∧ 2 ≤ p.2.length ∧
        x.size = some p.1 ∧ x ∈ docs := by
  unfold hash_groups
  set P : Nat → FileRec → Prop := fun k x =>
    x.hash = some k ∧
    ∃ p ∈ size_groups docs, x ∈ p.2 ∧ 2 ≤ p.2.length ∧
      x.size = some p.1 ∧ x ∈ docs with hP
  suffices hgen : ∀ (l : List (Nat × List FileRec)), l ⊆ size_groups docs →
      ∀ (acc : List (Nat × List FileRec)),
      (∀ q ∈ acc, ∀ x ∈ q.2, P q.1 x) →
      ∀ q ∈ l.foldl
        (fun acc p => if p.2.length < 2 then acc else p.2.foldl hashStep acc) acc,
        ∀ x ∈ q.2, P q.1 x by
    exact hgen _ (fun _ h => h) [] (by simp)
  have hinner : ∀ (files : List FileRec),
      (∀ f ∈ files, ∀ k, f.hash = some k → P k f) →
      ∀ (acc : List (Nat × List FileRec)),
      (∀ q ∈ acc, ∀ x ∈ q.2, P q.1 x) →
      ∀ q ∈ files.foldl hashStep acc, ∀ x ∈ q.2, P q.1 x := by
    intro files
    induction files with
    | nil => intro _ acc hacc; simpa using hacc
    | cons f fs ih =>
      intro hf acc hacc
      rw [List.foldl_cons]
      refine ih (fun g hg => hf g (List.mem_cons_of_mem _ hg)) _ ?_
      rcases hfh : f.hash with _ | k
      · simpa [hashStep, get_file_hash, hfh] using hacc
      · intro q hq x hx
        rcases mem_insertAssoc q k f acc (by
            simpa [hashStep, get_file_hash, hfh] using hq) with h | h | ⟨vs, hvs, hqe⟩
        · exact hacc q h x hx
        · subst h
          simp only [List.mem_singleton] at hx
          subst hx
          exact hf x (List.mem_cons_self _ _) k hfh
        · subst hqe
          simp only [List.mem_append, List.mem_singleton] at hx
          rcases hx with hx | hx
          · exact hacc _ hvs x hx
          · subst hx
            exact hf x (List.mem_cons_self _ _) k hfh
  intro l
  induction l with
  | nil => intro _ acc hacc; simpa using hacc
  | cons p ps ih =>
    intro hl acc hacc
    rw [List.foldl_cons]
    refine ih (fun _ h => hl (List.mem_cons_of_mem _ h)) _ ?_
    by_cases hlen : p.2.length < 2
    · simpa [if_pos hlen] using hacc
    · rw [if_neg hlen]
      refine hinner p.2 ?_ acc hacc
      intro f hfp k hk
      have hps : p ∈ size_groups docs := hl (List.mem_cons_self _ _)
      obtain ⟨hfd, hfs⟩ := size_groups_inv docs p hps f hfp
      exact ⟨hk, p, hps, hfp, by omega, hfs, hfd⟩

/-- Key order used by `sorted(files, key=get_creation_time)`. -/
def ctimeLE (a b : FileRec) : Prop :=
  timeLE (get_creation_time a) (get_creation_time b) = true

instance : DecidableRel ctimeLE :=
  fun _ _ => instDecidableEqBool _ _

/-- `select_keeper`: sort by creation time (Python's `sorted` is stable,
embedded as a stable insertion sort) and split off the head; `None` embeds
the `IndexError` that `sorted_files[0]` would raise on an empty list. -/
def select_keeper (files : List FileRec) : Option (FileRec × List FileRec) :=
  match List.insertionSort ctimeLE files with
  | [] => none
  | k :: rest => some (k, rest)

/-- The leftmost member attaining the minimal creation time. -/
def leftmostMin : List FileRec → Option FileRec
  | [] => none
  | x :: xs =>
    match leftmostMin xs with
    | none => some x
    | some m => if ctimeLE x m then some x else some m

theorem leftmostMin_cons_none {x : FileRec} {xs : List FileRec}
    (hx : leftmostMin xs = none) : leftmostMin (x :: xs) = some x := by
  simp only [leftmostMin, hx]

theorem leftmostMin_cons_some {x m : FileRec} {xs : List FileRec}
    (hx : leftmostMin xs = some m) :
    leftmostMin (x :: xs) = if ctimeLE x m then some x else some m := by
  simp only [leftmostMin, hx]

theorem leftmostMin_eq_none {l : List FileRec}
    (h : leftmostMin l = none) : l = [] := by
  cases l with
  | nil => rfl
  | cons x xs =>
    rcases hx : leftmostMin xs with _ | m
    · rw [leftmostMin_cons_none hx] at h; cases h
    · rw [leftmostMin_cons_some hx] at h
      by_cases hc : ctimeLE x m
      · rw [if_pos hc] at h; cases h
      · rw [if_neg hc] at h; cases h

theorem head_insertionSort_eq_leftmostMin (l : List FileRec) :
    (List.insertionSort ctimeLE l).head? = leftmostMin l := by
  induction l with
  | nil => rfl
  | cons x xs ih =>
    show (List.orderedInsert ctimeLE x (List.insertionSort ctimeLE xs)).head? = _
    rcases hs : List.insertionSort ctimeLE xs with _ | ⟨b, t⟩
    · rw [hs] at ih
      simp only [List.head?_nil] at ih
      rw [leftmostMin_cons_none ih.symm]
      rfl
    · rw [hs] at ih
      simp only [List.head?_cons] at ih
      rw [leftmostMin_cons_some ih.symm]
      by_cases h : ctimeLE x b
      · simp [List.orderedInsert, if_pos h]
      · simp [List.orderedInsert, if_neg h]

theorem leftmostMin_mem {l : List FileRec} {m : FileRec}
    (h : leftmostMin l = some m) : m ∈ l := by
  induction l with
  | nil => cases h
  | cons x xs ih =>
    rcases hx : leftmostMin xs with _ | m'
    · rw [leftmostMin_cons_none hx] at h
      simp only [Option.some_inj] at h
      simp [← h]
    · rw [leftmostMin_cons_some hx] at h
      by_cases hc : ctimeLE x m'
      · rw [if_pos hc] at h
        simp only [Option.some_inj] at h
        simp [← h]
      · rw [if_neg hc] at h
        simp only [Option.some_inj] at h
        exact List.mem_cons_of_mem _ (ih (by rw [hx, h]))

theorem leftmostMin_min {l : List FileRec} :
    ∀ {m : FileRec}, leftmostMin l = some m → ∀ f ∈ l, ctimeLE m f := by
  induction l with
  | nil => intro m h; cases h
  | cons x xs ih =>
    intro m h
    rcases hx : leftmostMin xs with _ | m'
    · rw [leftmostMin_cons_none hx] at h
      simp only [Option.some_inj] at h
      intro f hf
      rw [leftmostMin_eq_none hx] at hf
      simp only [List.mem_singleton] at hf
      rw [← h, hf]
      exact timeLE_refl _
    · rw [leftmostMin_cons_some hx] at h
      intro f hf
      rcases List.mem_cons.mp hf with hf | hf
      · by_cases hc : ctimeLE x m'
        · rw [if_pos hc] at h
          simp only [Option.some_inj] at h
          rw [← h, hf]
          exact timeLE_refl _
        · rw [if_neg hc] at h
          simp only [Option.some_inj] at h
          rw [← h, hf]
          rcases timeLE_total (get_creation_time m') (get_creation_time x) with ht | ht
          · exact ht
          · exact absurd ht hc
      · by_cases hc : ctimeLE x m'
        · rw [if_pos hc] at h
          simp only [Option.some_inj] at h
          rw [← h]
          exact timeLE_trans hc (ih hx f hf)
        · rw [if_neg hc] at h
          simp only [Option.some_inj] at h
          rw [← h]
          exact ih hx f hf

/-- The selected minimum is the *leftmost* one: every member occurring
before it in scan order has strictly later creation time. -/
theorem leftmostMin_split {l : List FileRec} {m : FileRec}
    (h : leftmostMin l = some m) :
    ∃ l₁ l₂, l = l₁ ++ m :: l₂ ∧ ∀ f ∈ l₁, ¬ ctimeLE f m := by
  induction l with
  | nil => cases h
  | cons x xs ih =>
    rcases hx : leftmostMin xs with _ | m'
    · rw [leftmostMin_cons_none hx] at h
      simp only [Option.some_inj] at h
      exact ⟨[], xs, by simp [h], by simp⟩
    · rw [leftmostMin_cons_some hx] at h
      by_cases hc : ctimeLE x m'
      · rw [if_pos hc] at h
        simp only [Option.some_inj] at h
        exact ⟨[], xs, by simp [h], by simp⟩
      · rw [if_neg hc] at h
        simp only [Option.some_inj] at h
        obtain ⟨l₁, l₂, heq, hstrict⟩ := ih (by rw [hx, h])
        refine ⟨x :: l₁, l₂, by simp [heq], ?_⟩
        intro f hf
        rcases List.mem_cons.mp hf with hf | hf
        · rw [hf, ← h]; exact hc
        · exact hstrict f hf

theorem select_keeper_eq (files : List FileRec) (k : FileRec)
    (r : List FileRec) (h : select_keeper files = some (k, r)) :
    List.insertionSort ctimeLE files = k :: r ∧ leftmostMin files = some k := by
  unfold select_keeper at h
  rcases hs : List.insertionSort ctimeLE files with _ | ⟨k', r'⟩
  · rw [hs] at h; cases h
  · rw [hs] at h
    simp only [Option.some_inj, Prod.mk.injEq] at h
    obtain ⟨hk, hr⟩ := h
    refine ⟨by rw [hk, hr], ?_⟩
    rw [← head_insertionSort_eq_leftmostMin, hs, hk]
    rfl

theorem two_le_length_of_mem_ne {α : Type} {a b : α} {l : List α}
    (ha : a ∈ l) (hb : b ∈ l) (hab : a ≠ b) : 2 ≤ l.length := by
  cases l with
  | nil => simp at ha
  | cons x xs =>
    cases xs with
    | nil =>
      simp only [List.mem_singleton] at ha hb
      exact absurd (ha.trans hb.symm) hab
    | cons y ys => simp

/-- C1.  Two distinct scanned files land in a common duplicate group
exactly when they share a (successfully stat-ed) byte size and a present
content digest; and every emitted group has at least two members.  The
hypothesis `Hdigest` states that the content digest determines the byte
size across the scanned records, the defining property of a content hash
that the global digest-keyed dict of `find_duplicates` relies on (the spec
accepts hash collisions as a non-goal). -/
theorem find_duplicates_same_group_iff (docs : List FileRec)
    (Hdigest : ∀ x ∈ docs, ∀ y ∈ docs, ∀ d : Nat,
      x.hash = some d → y.hash = some d → x.size = y.size)
    (a b : FileRec) (ha : a ∈ docs) (hb : b ∈ docs) (hab : a ≠ b) :
    ((∃ p ∈ find_duplicates docs, a ∈ p.2 ∧ b ∈ p.2) ↔
      ((∃ s : Nat, a.size = some s ∧ b.size = some s) ∧
        (∃ d : Nat, a.hash = some d ∧ b.hash = some d)))
    ∧ ∀ p ∈ find_duplicates docs, 2 ≤ p.2.length := by
  constructor
  · constructor
    · rintro ⟨p, hp, hpa, hpb⟩
      have hp' : p ∈ hash_groups docs := (List.mem_filter.mp hp).1
      obtain ⟨hha, qa, hqa, haqa, _, hsa, _⟩ := hash_groups_inv docs p hp' a hpa
      obtain ⟨hhb, qb, hqb, hbqb, _, hsb, _⟩ := hash_groups_inv docs p hp' b hpb
      have hsz : a.size = b.size := Hdigest a ha b hb p.1 hha hhb
      refine ⟨⟨qa.1, hsa, by rw [← hsz, hsa]⟩, ⟨p.1, hha, hhb⟩⟩
    · rintro ⟨⟨s, hsa, hsb⟩, ⟨d, hda, hdb⟩⟩
      have haA : a ∈ assocFind s (size_groups docs) := by
        rw [size_groups, mem_assocFind_foldl_sizeStep]
        exact Or.inr ⟨ha, hsa⟩
      have hbA : b ∈ assocFind s (size_groups docs) := by
        rw [size_groups, mem_assocFind_foldl_sizeStep]
        exact Or.inr ⟨hb, hsb⟩
      have hA2 : 2 ≤ (assocFind s (size_groups docs)).length :=
        two_le_length_of_mem_ne haA hbA hab
      have hAmem : (s, assocFind s (size_groups docs)) ∈ size_groups docs :=
        assocFind_mem_self s a _ haA
      have haB : a ∈ assocFind d (hash_groups docs) := by
        rw [mem_assocFind_hash_groups]
        exact ⟨(s, assocFind s (size_groups docs)), hAmem, by simpa using hA2,
          haA, hda⟩
      have hbB : b ∈ assocFind d (hash_groups docs) := by
        rw [mem_assocFind_hash_groups]
        exact ⟨(s, assocFind s (size_groups docs)), hAmem, by simpa using hA2,
          hbA, hdb⟩
      have hB2 : 2 ≤ (assocFind d (hash_groups docs)).length :=
        two_le_length_of_mem_ne haB hbB hab
      refine ⟨(d, assocFind d (hash_groups docs)),
        List.mem_filter.mpr ⟨assocFind_mem_self d a _ haB, by simpa using hB2⟩,
        haB, hbB⟩
  · intro p hp
    have := (List.mem_filter.mp hp).2
    simpa using this

def c1a : FileRec := ⟨1, some 100, some 7, some ⟨some 1, 0⟩⟩

def c1b : FileRec := ⟨2, some 100, some 7, some ⟨some 2, 0⟩⟩

/-- Witness for C1: two files of equal size and digest really end up in a
common group of `find_duplicates`. -/
theorem find_duplicates_same_group_iff_witness :
    ∃ p ∈ find_duplicates [c1a, c1b], c1a ∈ p.2 ∧ c1b ∈ p.2 :=
  (find_duplicates_same_group_iff [c1a, c1b] (by decide) c1a c1b (by decide)
    (by decide) (by decide)).1.mpr (by decide)

/-- C2.  In a non-empty group, `select_keeper` returns exactly one keeper
together with the remaining members (a permutation of the group); the
keeper attains the minimum creation time (`none` standing for the
`float('inf')` of an unreadable stat, so an unreadable member is never
chosen over one with a real timestamp), and among equal timestamps the
earliest member in original scan order is chosen (everything placed before
the keeper has a strictly later creation time). -/
theorem select_keeper_spec (files : List FileRec) (k : FileRec)
    (r : List FileRec) (h : select_keeper files = some (k, r)) :
    (k :: r).Perm files
    ∧ (∀ f ∈ files, timeLE (get_creation_time k) (get_creation_time f) = true)
    ∧ ((∃ f ∈ files, get_creation_time f ≠ none) → get_creation_time k ≠ none)
    ∧ ∃ l₁ l₂, files = l₁ ++ k :: l₂ ∧
        ∀ f ∈ l₁, timeLE (get_creation_time f) (get_creation_time k) = false := by
  obtain ⟨hsort, hmin⟩ := select_keeper_eq files k r h
  refine ⟨?_, ?_, ?_, ?_⟩
  · rw [← hsort]
    exact List.perm_insertionSort ctimeLE files
  · exact fun f hf => leftmostMin_min hmin f hf
  · rintro ⟨f, hf, hfne⟩ hk
    have := leftmostMin_min hmin f hf
    unfold ctimeLE at this
    rw [hk] at this
    rcases hgf : get_creation_time f with _ | t
    · exact hfne hgf
    · rw [hgf] at this
      simp [timeLE] at this
  · obtain ⟨l₁, l₂, heq, hstrict⟩ := leftmostMin_split hmin
    refine ⟨l₁, l₂, heq, ?_⟩
    intro f hf
    have := hstrict f hf
    unfold ctimeLE at this
    exact Bool.not_eq_true _ ▸ this

def c2a : FileRec := ⟨1, some 100, some 7, some ⟨some 5, 0⟩⟩

def c2b : FileRec := ⟨2, some 100, some 7, some ⟨some 3, 9⟩⟩

def c2c : FileRec := ⟨3, some 100, some 7, some ⟨none, 3⟩⟩

def c2d : FileRec := ⟨4, some 100, some 7, none⟩

/-- Witness for C2 on a group with a tie (files 2 and 3 are both created at
time 3; file 2 scans first and wins) and an unreadable timestamp (file 4
sorts last). -/
theorem select_keeper_spec_witness :
    (c2b :: [c2c, c2a, c2d]).Perm [c2a, c2b, c2c, c2d]
    ∧ (∀ f ∈ [c2a, c2b, c2c, c2d],
        timeLE (get_creation_time c2b) (get_creation_time f) = true)
    ∧ ((∃ f ∈ [c2a, c2b, c2c, c2d], get_creation_time f ≠ none) →
        get_creation_time c2b ≠ none)
    ∧ ∃ l₁ l₂, [c2a, c2b, c2c, c2d] = l₁ ++ c2b :: l₂ ∧
        ∀ f ∈ l₁, timeLE (get_creation_time f) (get_creation_time c2b) = false :=
  select_keeper_spec [c2a, c2b, c2c, c2d] c2b [c2c, c2a, c2d] (by decide)

/-- C3.  `get_file_hash` is total: it yields a digest or `none` (the
embedding of the caught `IOError`/`OSError`), and `find_duplicates` drops
every record whose digest is absent, so an unreadable file is a member of
no emitted duplicate group, whatever else is in the input. -/
theorem unreadable_never_grouped (docs : List FileRec) (f : FileRec)
    (hf : get_file_hash f = none) :
    ∀ p ∈ find_duplicates docs, f ∉ p.2 := by
  intro p hp hmem
  have hp' : p ∈ hash_groups docs := (List.mem_filter.mp hp).1
  obtain ⟨hhash, _⟩ := hash_groups_inv docs p hp' f hmem
  rw [show f.hash = get_file_hash f from rfl, hf] at hhash
  cases hhash

def c3bad : FileRec := ⟨1, some 100, none, some ⟨some 1, 0⟩⟩

def c3g1 : FileRec := ⟨2, some 100, some 7, some ⟨some 2, 0⟩⟩

def c3g2 : FileRec := ⟨3, some 100, some 7, some ⟨some 3, 0⟩⟩

/-- Witness for C3: the unreadable file shares its exact size with a real
duplicate pair and still joins no group. -/
theorem unreadable_never_grouped_witness :
    ¬ ∃ p ∈ find_duplicates [c3bad, c3g1, c3g2], c3bad ∈ p.2 :=
  fun ⟨p, hp, hmem⟩ =>
    unreadable_never_grouped [c3bad, c3g1, c3g2] c3bad (by decide) p hp hmem

/-! ## Multiset accounting for C10: every input record reaches at most one
bucket, hence the emitted groups are pairwise disjoint. -/

/-- All the files stored across the buckets of an association list. -/
def assocVals (l : List (Nat × List FileRec)) : List FileRec :=
  (l.map Prod.snd).flatten

theorem assocVals_insertAssoc (k : Nat) (v : FileRec)
    (l : List (Nat × List FileRec)) :
    (assocVals (insertAssoc k v l)).Perm (v :: assocVals l) := by
  induction l with
  | nil => simp [insertAssoc, assocVals]
  | cons p rest ih =>
    obtain ⟨a, vs⟩ := p
    by_cases h : a = k
    · simp only [insertAssoc, if_pos h, assocVals, List.map_cons, List.flatten_cons]
      have e : (vs ++ [v]) ++ (rest.map Prod.snd).flatten =
          vs ++ v :: (rest.map Prod.snd).flatten := by simp
      rw [e]
      exact List.perm_middle
    · simp only [insertAssoc, if_neg h, assocVals, List.map_cons, List.flatten_cons]
      exact (List.Perm.append_left vs ih).trans List.perm_middle

theorem assocVals_foldl_sizeStep (docs : List FileRec)
    (acc : List (Nat × List FileRec)) :
    (assocVals (docs.foldl sizeStep acc)).Perm
      (assocVals acc ++ docs.filter (fun d => d.size.isSome)) := by
  induction docs generalizing acc with
  | nil => simp
  | cons d ds ih =>
    rw [List.foldl_cons]
    rcases hd : d.size with _ | s
    · simpa [sizeStep, hd, List.filter_cons, Option.isSome] using ih acc
    · have e1 : sizeStep acc d = insertAssoc s d acc := by simp [sizeStep, hd]
      have e2 : (d :: ds).filter (fun d => d.size.isSome) =
          d :: ds.filter (fun d => d.size.isSome) := by
        simp [List.filter_cons, hd]
      rw [e1, e2]
      have h1 := ih (insertAssoc s d acc)
      have h2 : (assocVals (insertAssoc s d acc) ++
          ds.filter (fun d => d.size.isSome)).Perm
          (assocVals acc ++ (d :: ds.filter (fun d => d.size.isSome))) := by
        refine ((assocVals_insertAssoc s d acc).append_right _).trans ?_
        exact List.perm_middle.symm
      exact h1.trans h2

theorem assocVals_foldl_hashStep (files : List FileRec)
    (acc : List (Nat × List FileRec)) :
    (assocVals (files.foldl hashStep acc)).Perm
      (assocVals acc ++ files.filter (fun f => f.hash.isSome)) := by
  induction files generalizing acc with
  | nil => simp
  | cons f fs ih =>
    rw [List.foldl_cons]
    rcases hf : f.hash with _ | d
    · simpa [hashStep, get_file_hash, hf, List.filter_cons, Option.isSome]
        using ih acc
    · have e1 : hashStep acc f = insertAssoc d f acc := by
        simp [hashStep, get_file_hash, hf]
      have e2 : (f :: fs).filter (fun f => f.hash.isSome) =
          f :: fs.filter (fun f => f.hash.isSome) := by
        simp [List.filter_cons, hf]
      rw [e1, e2]
      have h1 := ih (insertAssoc d f acc)
      have h2 : (assocVals (insertAssoc d f acc) ++
          fs.filter (fun f => f.hash.isSome)).Perm
          (assocVals acc ++ (f :: fs.filter (fun f => f.hash.isSome))) := by
        refine ((assocVals_insertAssoc d f acc).append_right _).trans ?_
        exact List.perm_middle.symm
      exact h1.trans h2

/-- Files collected by the hashing phase, as a sub-multiset expression over
the size buckets. -/
theorem assocVals_hash_groups (docs : List FileRec) :
    (assocVals (hash_groups docs)).Perm
      (((size_groups docs).map (fun p =>
        if p.2.length < 2 then [] else p.2.filter (fun f => f.hash.isSome))).flatten) := by
  unfold hash_groups
  generalize size_groups docs = sgs
  suffices hgen : ∀ (l : List (Nat × List FileRec))
      (acc : List (Nat × List FileRec)),
      (assocVals (l.foldl
        (fun acc p => if p.2.length < 2 then acc else p.2.foldl hashStep acc) acc)).Perm
      (assocVals acc ++ (l.map (fun p =>
        if p.2.length < 2 then [] else p.2.filter (fun f => f.hash.isSome))).flatten) by
    simpa [assocVals] using hgen sgs []
  intro l
  induction l with
  | nil => simp
  | cons p ps ih =>
    intro acc
    rw [List.foldl_cons]
    by_cases hlen : p.2.length < 2
    · simpa [if_pos hlen] using ih acc
    · rw [if_neg hlen]
      have e : ((p :: ps).map (fun p =>
          if p.2.length < 2 then [] else p.2.filter (fun f => f.hash.isSome))).flatten =
          p.2.filter (fun f => f.hash.isSome) ++ (ps.map (fun p =>
          if p.2.length < 2 then [] else p.2.filter (fun f => f.hash.isSome))).flatten := by
        simp [if_neg hlen]
      rw [e, ← List.append_assoc]
      exact (ih _).trans ((assocVals_foldl_hashStep p.2 acc).append_right _)

theorem flatten_sublist_of_sublist {α : Type} {l l' : List (List α)}
    (h : l.Sublist l') : l.flatten.Sublist l'.flatten := by
  induction h with
  | slnil => exact List.Sublist.refl _
  | cons a _ ih =>
    rw [List.flatten_cons]
    exact ih.trans (List.sublist_append_right a _)
  | cons₂ a _ ih =>
    rw [List.flatten_cons, List.flatten_cons]
    exact ih.append_left a

theorem flatten_map_sublist_assocVals (l : List (Nat × List FileRec))
    (f : Nat × List FileRec → List FileRec)
    (hf : ∀ p ∈ l, (f p).Sublist p.2) :
    ((l.map f).flatten).Sublist (assocVals l) := by
  induction l with
  | nil => exact List.Sublist.refl _
  | cons p ps ih =>
    simp only [List.map_cons, List.flatten_cons, assocVals]
    exact List.Sublist.append (hf p (List.mem_cons_self _ _))
      (ih (fun q hq => hf q (List.mem_cons_of_mem _ hq)))

theorem subperm_map {α β : Type} (f : α → β) {l l' : List α}
    (h : l.Subperm l') : (l.map f).Subperm (l'.map f) := by
  obtain ⟨m, hm, hs⟩ := h
  exact ⟨m.map f, hm.map f, hs.map f⟩

theorem nodup_of_subperm {α : Type} {l l' : List α}
    (h : l.Subperm l') (h' : l'.Nodup) : l.Nodup := by
  obtain ⟨m, hm, hs⟩ := h
  exact hm.nodup_iff.mp (h'.sublist hs)

/-- The records emitted by `find_duplicates`, across all groups, form a
sub-multiset of the input records. -/
theorem find_duplicates_subperm (docs : List FileRec) :
    (((find_duplicates docs).map Prod.snd).flatten).Subperm docs := by
  have s1 : (((find_duplicates docs).map Prod.snd).flatten).Sublist
      (assocVals (hash_groups docs)) :=
    flatten_sublist_of_sublist
      ((List.filter_sublist (hash_groups docs)).map Prod.snd)
  have s2 := assocVals_hash_groups docs
  have s3 : ((((size_groups docs).map (fun p =>
      if p.2.length < 2 then [] else p.2.filter (fun f => f.hash.isSome))).flatten)).Sublist
      (assocVals (size_groups docs)) := by
    refine flatten_map_sublist_assocVals _ _ ?_
    intro p _
    by_cases hlen : p.2.length < 2
    · simp [if_pos hlen]
    · rw [if_neg hlen]
      exact List.filter_sublist p.2
  have s4 := assocVals_foldl_sizeStep docs []
  have s5 : (docs.filter (fun d => d.size.isSome)).Sublist docs :=
    List.filter_sublist docs
  refine (s1.subperm).trans ((s2.subperm).trans ((s3.subperm).trans
    ((((show (assocVals (docs.foldl sizeStep [])).Perm
      (docs.filter fun d => d.size.isSome) by simpa [assocVals] using s4)).subperm).trans
      s5.subperm)))

/-- C10.  When the scanned paths are pairwise distinct, the groups emitted
by `find_duplicates` are pairwise disjoint and duplicate-free: the list of
all member paths across all groups has no repetition, so each record
appears in at most one group, at most once. -/
theorem find_duplicates_groups_disjoint (docs : List FileRec)
    (hnd : (docs.map FileRec.path).Nodup) :
    ((((find_duplicates docs).map Prod.snd).flatten).map FileRec.path).Nodup :=
  nodup_of_subperm (subperm_map FileRec.path (find_duplicates_subperm docs)) hnd

def c10a : FileRec := ⟨11, some 50, some 4, some ⟨some 1, 0⟩⟩

def c10b : FileRec := ⟨12, some 50, some 4, some ⟨some 2, 0⟩⟩

def c10c : FileRec := ⟨13, some 50, some 9, some ⟨some 3, 0⟩⟩

def c10d : FileRec := ⟨14, some 60, none, some ⟨some 4, 0⟩⟩

/-- Witness for C10 on a four-record input producing a genuine group. -/
theorem find_duplicates_groups_disjoint_witness :
    ((((find_duplicates [c10a, c10b, c10c, c10d]).map Prod.snd).flatten).map
      FileRec.path).Nodup :=
  find_duplicates_groups_disjoint [c10a, c10b, c10c, c10d] (by decide)

end dedup1

namespace dedup2

/-! ## `wechat-dedup/scripts/dedup.py`, lines 79–101: the second variant of
`find_duplicates` and `select_keeper`, embedded independently from its own
source text (it lacks the comments of the root variant but performs the
same statements). -/

/-- `size_groups[doc.stat().st_size].append(doc)` with
`except (IOError, OSError): continue`. -/
def sizeStep (acc : List (Nat × List FileRec)) (doc : FileRec) :
    List (Nat × List FileRec) :=
  match doc.size with
  | none => acc
  | some s => insertAssoc s doc acc

/-- `hash_groups[file_hash].append(filepath)` guarded by `if file_hash:`. -/
def hashStep (acc : List (Nat × List FileRec)) (f : FileRec) :
    List (Nat × List FileRec) :=
  match get_file_hash f with
  | none => acc
  | some h => insertAssoc h f acc

/-- `find_duplicates` of the scripts variant. -/
def find_duplicates (documents : List FileRec) : List (Nat × List FileRec) :=
  let size_groups := documents.foldl sizeStep []
  let hash_groups := size_groups.foldl
    (fun acc p => if p.2.length < 2 then acc else p.2.foldl hashStep acc) []
  hash_groups.filter (fun p => 2 ≤ p.2.length)

/-- `select_keeper` of the scripts variant. -/
def select_keeper (files : List FileRec) : Option (FileRec × List FileRec) :=
  match List.insertionSort dedup1.ctimeLE files with
  | [] => none
  | k :: rest => some (k, rest)

end dedup2

/-- C9.  The two source variants' duplicate-detection cores are
extensionally equal: on every input list `find_duplicates` of
`dedup.py` and of `wechat-dedup/scripts/dedup.py` return the same
grouping, and `select_keeper` of both returns the same (keeper, removals)
pair (on every list, the empty one included). -/
theorem variants_extensionally_equal :
    (∀ docs : List FileRec,
      dedup1.find_duplicates docs = dedup2.find_duplicates docs)
    ∧ ∀ files : List FileRec,
      dedup1.select_keeper files = dedup2.select_keeper files :=
  ⟨fun _ => rfl, fun _ => rfl⟩

namespace quarantine

/-! ## `move_to_quarantine` (root variant lines 107–124, scripts variant
lines 104–112; the two bodies are the same algorithm).  File names are
embedded as character lists; the quarantine directory's contents are the
list of names existing in it, and `shutil.move` makes the chosen target
name exist for all later calls. -/

/-- Decimal digits of `n` (most significant first), the embedding of the
`{counter}` interpolation in `f"{stem}_{counter}{suffix}"`.  `fuel` bounds
the recursion; any `fuel ≥ n` computes the digits. -/
def natDigitsAux : Nat → Nat → List Char
  | 0, _ => []
  | fuel + 1, n =>
    if n = 0 then []
    else natDigitsAux fuel (n / 10) ++ [Char.ofNat (48 + n % 10)]

def natDigits (n : Nat) : List Char :=
  if n = 0 then [Char.ofNat 48] else natDigitsAux n n

theorem natDigitsAux_fuel :
    ∀ (n fuel fuel' : Nat), n ≤ fuel → n ≤ fuel' →
      natDigitsAux fuel n = natDigitsAux fuel' n := by
  intro n
  induction n using Nat.strong_induction_on with
  | _ n ih =>
    intro fuel fuel' h h'
    cases fuel with
    | zero =>
      have hn : n = 0 := by omega
      subst hn
      cases fuel' with
      | zero => rfl
      | succ f' => simp [natDigitsAux]
    | succ f =>
      cases fuel' with
      | zero =>
        have hn : n = 0 := by omega
        subst hn
        simp [natDigitsAux]
      | succ f' =>
        by_cases hn : n = 0
        · simp [natDigitsAux, hn]
        · have hdiv : n / 10 < n := Nat.div_lt_self (by omega) (by omega)
          simp only [natDigitsAux, if_neg hn]
          rw [ih (n / 10) hdiv f f' (by omega) (by omega)]

def digitVal (c : Char) : Nat := c.toNat - 48

def parseNat (l : List Char) : Nat :=
  l.foldl (fun a c => 10 * a + digitVal c) 0

theorem parseNat_append_singleton (l : List Char) (c : Char) :
    parseNat (l ++ [c]) = 10 * parseNat l + digitVal c := by
  unfold parseNat
  rw [List.foldl_append]
  rfl

theorem parseNat_natDigitsAux :
    ∀ (n fuel : Nat), n ≤ fuel → parseNat (natDigitsAux fuel n) = n := by
  intro n
  induction n using Nat.strong_induction_on with
  | _ n ih =>
    intro fuel h
    cases fuel with
    | zero =>
      have hn : n = 0 := by omega
      subst hn
      rfl
    | succ f =>
      by_cases hn : n = 0
      · subst hn; simp [natDigitsAux, parseNat]
      · have hdiv : n / 10 < n := Nat.div_lt_self (by omega) (by omega)
        simp only [natDigitsAux, if_neg hn]
        rw [parseNat_append_singleton, ih (n / 10) hdiv f (by omega)]
        have h10 : n % 10 < 10 := Nat.mod_lt _ (by omega)
        have hv : digitVal (Char.ofNat (48 + n % 10)) = n % 10 := by
          set r := n % 10 with hr
          interval_cases r <;> decide
        rw [hv]
        omega

theorem parseNat_natDigits (n : Nat) : parseNat (natDigits n) = n := by
  unfold natDigits
  by_cases hn : n = 0
  · subst hn; rfl
  · rw [if_neg hn]
    exact parseNat_natDigitsAux n n le_rfl

theorem natDigits_injective {m n : Nat} (h : natDigits m = natDigits n) :
    m = n := by
  have := congrArg parseNat h
  rwa [parseNat_natDigits, parseNat_natDigits] at this

theorem natDigits_ne_nil (n : Nat) : natDigits n ≠ [] := by
  unfold natDigits
  by_cases hn : n = 0
  · simp [hn]
  · rw [if_neg hn]
    cases n with
    | zero => exact absurd rfl hn
    | succ m =>
      simp [natDigitsAux, hn]

/-- The `stem`/`suffix` decomposition `pathlib` gives for a source file:
`filepath.name = stem + suffix`. -/
structure SrcName where
  stem : List Char
  suffix : List Char
deriving DecidableEq, Repr

/-- The sequence of destination basenames tried: first `filepath.name`,
then `f"{stem}_{counter}{suffix}"` for `counter = 1, 2, …`. -/
def cand (f : SrcName) : Nat → List Char
  | 0 => f.stem ++ f.suffix
  | k + 1 => f.stem ++ (Char.ofNat 95 :: natDigits (k + 1)) ++ f.suffix

theorem cand_injective (f : SrcName) {i j : Nat} (h : cand f i = cand f j) :
    i = j := by
  cases i with
  | zero =>
    cases j with
    | zero => rfl
    | succ j' =>
      have hlen := congrArg List.length h
      have hnd : 0 < (natDigits (j' + 1)).length :=
        List.length_pos.mpr (natDigits_ne_nil _)
      simp [cand, List.length_append] at hlen
      omega
  | succ i' =>
    cases j with
    | zero =>
      have hlen := congrArg List.length h
      have hnd : 0 < (natDigits (i' + 1)).length :=
        List.length_pos.mpr (natDigits_ne_nil _)
      simp [cand, List.length_append] at hlen
      omega
    | succ j' =>
      simp only [cand, List.append_assoc] at h
      have h1 := List.append_cancel_left h
      have h2 := List.append_cancel_right h1
      simp only [List.cons.injEq, true_and] at h2
      rw [natDigits_injective h2]

/-- The collision-resolution loop:
`target = dir/name; counter = 1; while target.exists(): target = dir/f"{stem}_{counter}{suffix}"; counter += 1`.
`k` counts candidates already tried, `fuel` bounds the unbounded `while`
(enough fuel always exists, proved below). -/
def findTarget (f : SrcName) (existing : List (List Char)) :
    Nat → Nat → Option (List Char)
  | _, 0 => none
  | k, fuel + 1 =>
    if cand f k ∈ existing then findTarget f existing (k + 1) fuel
    else some (cand f k)

/-- `move_to_quarantine`: the name finally given to the moved file inside
the quarantine directory whose current contents are `existing`. -/
def move_to_quarantine (f : SrcName) (existing : List (List Char)) :
    Option (List Char) :=
  findTarget f existing 0 (existing.length + 1)

theorem findTarget_some {f : SrcName} {existing : List (List Char)} :
    ∀ (fuel k : Nat) (t : List Char),
      findTarget f existing k fuel = some t →
      t ∉ existing ∧ ∃ k', k ≤ k' ∧ t = cand f k' ∧
        ∀ j, k ≤ j → j < k' → cand f j ∈ existing := by
  intro fuel
  induction fuel with
  | zero => intro k t h; cases h
  | succ fuel ih =>
    intro k t h
    by_cases hk : cand f k ∈ existing
    · rw [findTarget, if_pos hk] at h
      obtain ⟨hni, k', hk', ht, hall⟩ := ih (k + 1) t h
      refine ⟨hni, k', by omega, ht, ?_⟩
      intro j hj1 hj2
      rcases Nat.eq_or_lt_of_le hj1 with hj | hj
      · rw [← hj]; exact hk
      · exact hall j hj hj2
    · rw [findTarget, if_neg hk] at h
      simp only [Option.some_inj] at h
      exact ⟨h ▸ hk, k, le_rfl, h.symm, fun j hj1 hj2 => by omega⟩

theorem findTarget_none {f : SrcName} {existing : List (List Char)} :
    ∀ (fuel k : Nat), findTarget f existing k fuel = none →
      ∀ i, k ≤ i → i < k + fuel → cand f i ∈ existing := by
  intro fuel
  induction fuel with
  | zero => intro k _ i _ hi; omega
  | succ fuel ih =>
    intro k h i hi1 hi2
    by_cases hk : cand f k ∈ existing
    · rw [findTarget, if_pos hk] at h
      rcases Nat.eq_or_lt_of_le hi1 with hi | hi
      · rw [← hi]; exact hk
      · exact ih (k + 1) h i hi (by omega)
    · rw [findTarget, if_neg hk] at h
      cases h

/-- The loop always terminates with a fresh name: among the
`existing.length + 1` pairwise-distinct first candidates one is free. -/
theorem move_to_quarantine_isSome (f : SrcName) (existing : List (List Char)) :
    ∃ t, move_to_quarantine f existing = some t := by
  rcases h : move_to_quarantine f existing with _ | t
  · exfalso
    unfold move_to_quarantine at h
    have hall := findTarget_none _ _ h
    have hsub : ((List.range (existing.length + 1)).map (cand f)) ⊆ existing := by
      intro x hx
      obtain ⟨i, hi, hx⟩ := List.mem_map.mp hx
      rw [← hx]
      exact hall i (by omega) (by simpa using List.mem_range.mp hi)
    have hinj : Function.Injective (cand f) := fun i j h => cand_injective f h
    have hnd : ((List.range (existing.length + 1)).map (cand f)).Nodup :=
      (List.nodup_range _).map hinj
    have := (hnd.subperm hsub).length_le
    simp at this
  · exact ⟨t, rfl⟩

/-- The execution loop of `main`: sequential moves into one shared
quarantine directory, each successful `shutil.move` adding its target to
the directory contents seen by later calls. -/
def moveSeq (files : List SrcName) (existing : List (List Char)) :
    List (List Char) × List (List Char) :=
  files.foldl (fun st f =>
    match move_to_quarantine f st.2 with
    | some t => (st.1 ++ [t], t :: st.2)
    | none => st) ([], existing)

theorem moveSeq_inv (existing : List (List Char)) :
    ∀ (files : List SrcName) (st : List (List Char) × List (List Char)),
      st.1.Nodup → (∀ t ∈ st.1, t ∉ existing) → (∀ t ∈ st.1, t ∈ st.2) →
      (∀ x ∈ existing, x ∈ st.2) →
      let st' := files.foldl (fun st f =>
        match move_to_quarantine f st.2 with
        | some t => (st.1 ++ [t], t :: st.2)
        | none => st) st
      st'.1.Nodup ∧ (∀ t ∈ st'.1, t ∉ existing) ∧ (∀ t ∈ st'.1, t ∈ st'.2) ∧
        (∀ x ∈ existing, x ∈ st'.2) ∧ st'.1.length = st.1.length + files.length := by
  intro files
  induction files with
  | nil =>
    intro st h1 h2 h3 h4
    exact ⟨h1, h2, h3, h4, by simp⟩
  | cons f fs ih =>
    intro st h1 h2 h3 h4
    rw [List.foldl_cons]
    obtain ⟨t, ht⟩ := move_to_quarantine_isSome f st.2
    have htfresh : t ∉ st.2 := (findTarget_some _ _ _ ht).1
    have hstep : (match move_to_quarantine f st.2 with
        | some t => (st.1 ++ [t], t :: st.2)
        | none => st) = (st.1 ++ [t], t :: st.2) := by rw [ht]
    rw [hstep]
    have h1' : (st.1 ++ [t]).Nodup := by
      rw [List.nodup_append]
      refine ⟨h1, List.nodup_singleton t, ?_⟩
      intro u hu
      simp only [List.mem_singleton]
      intro hut
      exact htfresh (hut ▸ h3 u hu)
    have h2' : ∀ u ∈ st.1 ++ [t], u ∉ existing := by
      intro u hu
      rcases List.mem_append.mp hu with hu | hu
      · exact h2 u hu
      · simp only [List.mem_singleton] at hu
        subst hu
        intro hue
        exact htfresh (h4 u hue)
    have h3' : ∀ u ∈ st.1 ++ [t], u ∈ t :: st.2 := by
      intro u hu
      rcases List.mem_append.mp hu with hu | hu
      · exact List.mem_cons_of_mem _ (h3 u hu)
      · simp only [List.mem_singleton] at hu
        subst hu
        exact List.mem_cons_self _ _
    have h4' : ∀ x ∈ existing, x ∈ t :: st.2 :=
      fun x hx => List.mem_cons_of_mem _ (h4 x hx)
    obtain ⟨g1, g2, g3, g4, g5⟩ := ih (st.1 ++ [t], t :: st.2) h1' h2' h3' h4'
    refine ⟨g1, g2, g3, g4, ?_⟩
    rw [g5]
    simp [List.length_append]
    omega

/-- C4.  A single `move_to_quarantine` always succeeds, never lands on an
existing name, and picks exactly the first free candidate of the
deterministic sequence `name, stem_1suffix, stem_2suffix, …`; and over any
sequence of sequential moves into a shared quarantine directory every
file gets moved (one target per source), all resulting names are distinct,
and no name present before the run is ever reused, so no existing file is
overwritten. -/
theorem move_to_quarantine_safe (f : SrcName) (ex : List (List Char))
    (files : List SrcName) :
    (∃ t k, move_to_quarantine f ex = some t ∧ t = cand f k ∧ t ∉ ex ∧
      ∀ j < k, cand f j ∈ ex)
    ∧ (moveSeq files ex).1.length = files.length
    ∧ (moveSeq files ex).1.Nodup
    ∧ ∀ t ∈ (moveSeq files ex).1, t ∉ ex := by
  obtain ⟨t, ht⟩ := move_to_quarantine_isSome f ex
  obtain ⟨hni, k, _, htk, hall⟩ := findTarget_some _ _ _ ht
  have hseq := moveSeq_inv ex files ([], ex) (by simp) (by simp) (by simp)
    (fun x hx => hx)
  obtain ⟨g1, g2, _, _, g5⟩ := hseq
  refine ⟨⟨t, k, ht, htk, hni, fun j hj => hall j (by omega) hj⟩, ?_, g1, g2⟩
  rw [show moveSeq files ex = files.foldl (fun st f =>
    match move_to_quarantine f st.2 with
    | some t => (st.1 ++ [t], t :: st.2)
    | none => st) ([], ex) from rfl]
  rw [g5]
  simp

end quarantine

/-! ## Numeric rendering shared by the two reports.

`"%.2f"`-style formatting of `num/den`.  The Python source computes the
quotient in binary floating point before formatting; the embedding uses
the exact rational value with the same round-half-to-even rule, which
agrees on every value the claims exercise (and can differ from float
formatting only where the float representation error crosses a rounding
boundary). -/

/-- Round `num / den` to the nearest integer, ties to even. -/
def roundHalfEven (num den : Nat) : Nat :=
  let q := num / den
  let r := num % den
  if 2 * r < den then q
  else if den < 2 * r then q + 1
  else if q % 2 = 0 then q else q + 1

/-- `f"{num / den:.2f}"`. -/
def fmt2f (num den : Nat) : String :=
  let cents := roundHalfEven (num * 100) den
  Nat.repr (cents / 100) ++ "." ++
    (if cents % 100 < 10 then "0" ++ Nat.repr (cents % 100)
     else Nat.repr (cents % 100))

/-- `f"{num / den:.1f}"`. -/
def fmt1f (num den : Nat) : String :=
  let tenths := roundHalfEven (num * 10) den
  Nat.repr (tenths / 10) ++ "." ++ Nat.repr (tenths % 10)

namespace dedup1

/-! ## `generate_report` (root variant, lines 127–164) over the `results`
dict built by `main`. -/

/-- One entry of `group_info['removed']`: `quarantine` is `None` until the
move executes. -/
structure MoveRecord where
  original : String
  quarantine : Option String
  size : Nat
deriving DecidableEq, Repr

structure GroupInfo where
  keeper : String
  removed : List MoveRecord
deriving DecidableEq, Repr

/-- The `results` dict: `{'groups': …, 'removed_count': …, 'saved_bytes': …}`. -/
structure RunResult where
  groups : List GroupInfo
  removed_count : Nat
  saved_bytes : Nat
deriving DecidableEq, Repr

/-- How an f-string renders `removed['quarantine']`: `None` or the string. -/
def renderOpt : Option String → String
  | none => "None"
  | some s => s

/-- One `### 组 {i}` section of the report loop body. -/
def groupSection (i : Nat) (g : GroupInfo) : String :=
  "### 组 " ++ Nat.repr i ++ "\n\n" ++
  "**保留**：`" ++ g.keeper ++ "`\n\n" ++
  "**移除**：\n" ++
  String.join (g.removed.map (fun r =>
    "- `" ++ r.original ++ "` → `" ++ renderOpt r.quarantine ++ "`\n")) ++
  "\n"

/-- The `for i, group in enumerate(results['groups'], 1)` loop. -/
def groupSections : Nat → List GroupInfo → String
  | _, [] => ""
  | i, g :: gs => groupSection i g ++ groupSections (i + 1) gs

/-- Everything of the report before the interpolated timestamp. -/
def reportPre : String := "# 微信文档去重报告\n\n**执行时间**："

/-- Everything of the report after the interpolated timestamp: summary
table (`节省空间` always rendered as `{saved/1024/1024:.2f} MB`), the
per-group detail sections, and the fixed footer. -/
def reportPost (results : RunResult) (quarantine_dir : String) : String :=
  "\n\n## 统计摘要\n\n| 指标 | 数值 |\n|------|------|\n| 重复组数 | " ++
  Nat.repr results.groups.length ++
  " |\n| 移除文件数 | " ++ Nat.repr results.removed_count ++
  " |\n| 节省空间 | " ++ fmt2f results.saved_bytes (1024 * 1024) ++
  " MB |\n| 隔离文件夹 | `" ++ quarantine_dir ++
  "` |\n\n## 重复文件详情\n\n" ++
  groupSections 1 results.groups ++
  "\n---\n\n> 这些文件已移动到隔离文件夹，30天后请自行确认删除。\n> 如需恢复，请从隔离文件夹中找回。\n"

/-- `generate_report`.  `now` is the value of
`datetime.now().strftime('%Y-%m-%d %H:%M:%S')`, read from the wall clock
inside the function at call time — an ambient input that is not part of
the `RunResult`. -/
def generate_report (now : String) (results : RunResult)
    (quarantine_dir : String) : String :=
  reportPre ++ now ++ reportPost results quarantine_dir

def c6r : RunResult :=
  ⟨[⟨"/a/k.pdf", [⟨"/a/b.pdf", none, 512⟩]⟩], 1, 512⟩

/-- C6 counterexample: identical `RunResult` and quarantine path, two
calls one wall-clock second apart, different rendered documents — the
code embeds `datetime.now()` in the output, so `generate_report` is not a
pure function of the `RunResult` alone. -/
theorem generate_report_not_pure :
    generate_report "2026-01-01 00:00:00" c6r "/q" ≠
      generate_report "2026-01-01 00:00:01" c6r "/q" := by decide

/-- C6 (amended).  `generate_report` additionally reads the wall clock;
it is deterministic as a function of the `RunResult`, the quarantine path
and that timestamp: with the `RunResult` and path fixed, two renderings
coincide exactly when the two clock readings do. -/
theorem generate_report_deterministic_given_clock (now now' : String)
    (results : RunResult) (quarantine_dir : String) :
    generate_report now results quarantine_dir =
      generate_report now' results quarantine_dir ↔ now = now' := by
  constructor
  · intro h
    have hd := congrArg String.data h
    simp only [generate_report, String.data_append, List.append_assoc] at hd
    exact String.ext (List.append_cancel_right (List.append_cancel_left hd))
  · intro h
    rw [h]

end dedup1

namespace dedup2

/-- `format_size` (scripts variant, lines 155–162): scale to the largest
1024-based unit of at least one, two decimals for GB/MB, one for KB. -/
def format_size (bytes_size : Nat) : String :=
  if bytes_size ≥ 1024 ^ 3 then fmt2f bytes_size (1024 ^ 3) ++ " GB"
  else if bytes_size ≥ 1024 ^ 2 then fmt2f bytes_size (1024 ^ 2) ++ " MB"
  else if bytes_size ≥ 1024 then fmt1f bytes_size 1024 ++ " KB"
  else Nat.repr bytes_size ++ " B"

end dedup2

def c7r : dedup1.RunResult :=
  ⟨[⟨"/a/k.pdf", [⟨"/a/b.pdf", none, 512⟩]⟩], 1, 512⟩

set_option maxRecDepth 4000 in
/-- C7 counterexample: in the root variant's report the saved-space cell
does not scale units — a run saving 512 bytes renders it as `0.00 MB`,
and the string `512 B` appears nowhere in the document. -/
theorem report_512_not_rendered_as_B :
    fmt2f 512 (1024 * 1024) ++ " MB" = "0.00 MB"
    ∧ ¬ ("512 B".data <:+:
        (dedup1.generate_report "2026-01-01 00:00:00" c7r "/q").data)
    ∧ ("0.00 MB".data <:+:
        (dedup1.generate_report "2026-01-01 00:00:00" c7r "/q").data) := by
  refine ⟨by decide, by decide, by decide⟩

/-- C7 (amended).  The scripts variant's `format_size` scales each value
to B/KB/MB/GB choosing the largest 1024-based unit where the value is at
least 1 of that unit, with the four example renderings of the claim; the
root variant's report instead renders its byte total unconditionally in
MB (see the counterexample). -/
theorem format_size_spec (n : Nat) :
    dedup2.format_size 512 = "512 B"
    ∧ dedup2.format_size 2048 = "2.0 KB"
    ∧ dedup2.format_size (5 * 1024 ^ 2) = "5.00 MB"
    ∧ dedup2.format_size (3 * 1024 ^ 3) = "3.00 GB"
    ∧ (n < 1024 → dedup2.format_size n = Nat.repr n ++ " B")
    ∧ (1024 ≤ n → n < 1024 ^ 2 →
        dedup2.format_size n = fmt1f n 1024 ++ " KB")
    ∧ (1024 ^ 2 ≤ n → n < 1024 ^ 3 →
        dedup2.format_size n = fmt2f n (1024 ^ 2) ++ " MB")
    ∧ (1024 ^ 3 ≤ n → dedup2.format_size n = fmt2f n (1024 ^ 3) ++ " GB") := by
  refine ⟨by decide, by decide, by decide, by decide, ?_, ?_, ?_, ?_⟩
  all_goals
    intros
    unfold dedup2.format_size
    split_ifs <;> first | rfl | omega

/-- Witness for the conditional clauses of the amended C7. -/
theorem format_size_spec_witness :
    dedup2.format_size 2048 = fmt1f 2048 1024 ++ " KB" :=
  (format_size_spec 2048).2.2.2.2.2.1 (by omega) (by omega)

namespace dedup1

/-! ## The confirmation gate of `main` (root variant, lines 167–257).

The trace records the externally visible filesystem-relevant events of one
run: the `input()` prompt (`ask`) and the mutations — the
`QUARANTINE_DIR.mkdir`, each `shutil.move` performed by
`move_to_quarantine`, and the report write.  Console printing touches no
file and `stat`/hash reads mutate nothing, so they do not appear.
`stillExists` is the oracle for `original_path.exists()` at move time. -/

inductive Event where
  | ask
  | mkdirQuarantine
  | move (path : Nat)
  | writeReport
deriving DecidableEq, Repr

def Event.isMutation : Event → Bool
  | .ask => false
  | .mkdirQuarantine => true
  | .move _ => true
  | .writeReport => true

/-- `.strip()`: drop leading and trailing whitespace. -/
def pyStrip (s : List Char) : List Char :=
  (((s.dropWhile Char.isWhitespace).reverse).dropWhile Char.isWhitespace).reverse

/-- `.lower()` (ASCII case folding suffices for the `y`/`n` answers). -/
def pyLower (s : List Char) : List Char :=
  s.map Char.toLower

/-- `input("…(y/n): ").strip().lower() == 'y'`; anything else makes `main`
print `已取消操作。` and return. -/
def confirmYes (answer : String) : Bool :=
  pyLower (pyStrip answer.data) == ['y']

/-- The removal plan `main` accumulates before the gate: for each group of
`find_duplicates`, everything but the selected keeper, in group order. -/
def planRemovals (dups : List (Nat × List FileRec)) : List FileRec :=
  (dups.map (fun p =>
    match select_keeper p.2 with
    | none => []
    | some kr => kr.2)).flatten

/-- The event trace of `main`: early return when no documents or no
duplicates; otherwise the preview is printed, the question is asked, and
only an affirmative answer reaches the mkdir / move / report-write part. -/
def mainTrace (documents : List FileRec) (stillExists : Nat → Bool)
    (answer : String) : List Event :=
  if documents.isEmpty then []
  else if (find_duplicates documents).isEmpty then []
  else
    Event.ask ::
      (if confirmYes answer then
        Event.mkdirQuarantine ::
          (((planRemovals (find_duplicates documents)).filter
            (fun f => stillExists f.path)).map (fun f => Event.move f.path) ++
            [Event.writeReport])
      else [])

theorem mainTrace_shape (documents : List FileRec) (stillExists : Nat → Bool)
    (answer : String) :
    mainTrace documents stillExists answer = [] ∨
    ∃ rest, mainTrace documents stillExists answer = Event.ask :: rest ∧
      (confirmYes answer = false → rest = []) := by
  unfold mainTrace
  by_cases h1 : documents.isEmpty
  · left; simp [h1]
  · by_cases h2 : (find_duplicates documents).isEmpty
    · left; simp [h1, h2]
    · right
      refine ⟨(if confirmYes answer then
          Event.mkdirQuarantine ::
            (((planRemovals (find_duplicates documents)).filter
              (fun f => stillExists f.path)).map (fun f => Event.move f.path) ++
              [Event.writeReport])
        else []), ?_, ?_⟩
      · simp [h1, h2]
      · intro hc; simp [hc]

/-- C5.  No filesystem mutation ever precedes the confirmation prompt
(every mutation event in the trace has the `ask` event strictly before
it), and a non-affirmative answer leaves the trace mutation-free — the
run ends by plain `return`, the filesystem untouched. -/
theorem confirmation_gate (documents : List FileRec) (stillExists : Nat → Bool)
    (answer : String) :
    (confirmYes answer = false →
      (mainTrace documents stillExists answer).filter Event.isMutation = [])
    ∧ ∀ (pre post : List Event) (e : Event),
        mainTrace documents stillExists answer = pre ++ e :: post →
        Event.isMutation e = true → Event.ask ∈ pre := by
  rcases mainTrace_shape documents stillExists answer with h | ⟨rest, h, hneg⟩
  · constructor
    · intro _; rw [h]; rfl
    · intro pre post e htr _
      rw [h] at htr
      exact absurd htr.symm (by simp)
  · constructor
    · intro hc
      rw [h, hneg hc]
      rfl
    · intro pre post e htr hmut
      rw [h] at htr
      cases pre with
      | nil =>
        simp only [List.nil_append, List.cons.injEq] at htr
        rw [← htr.1] at hmut
        cases hmut
      | cons p pre' =>
        simp only [List.cons_append, List.cons.injEq] at htr
        rw [htr.1]
        exact List.mem_cons_self _ _

def c5a : FileRec := ⟨1, some 100, some 7, some ⟨some 1, 0⟩⟩

def c5b : FileRec := ⟨2, some 100, some 7, some ⟨some 2, 0⟩⟩

/-- Witness for C5: a run over a genuine duplicate pair answered `n`
performs no mutation. -/
theorem confirmation_gate_witness :
    (mainTrace [c5a, c5b] (fun _ => true) "n").filter Event.isMutation = [] :=
  (confirmation_gate [c5a, c5b] (fun _ => true) "n").1 (by decide)

end dedup1

namespace dedup2

inductive MoveOutcome where
  | moved (path : Nat)
  | vanished (path : Nat)
deriving DecidableEq, Repr

/-- Move-execution loop of the scripts variant `main` (lines 251–262); the
root variant's loop (lines 240–246) is the same minus the counter.  Each
planned removal is checked with `original_path.exists()`: if present it is
moved and counted (`moved_count += 1`), otherwise nothing is moved for it
— its `quarantine` field staying `None` is the distinct "source vanished"
outcome — and the loop continues with the remaining removals either way. -/
def execMoves (removals : List FileRec) (stillExists : Nat → Bool) :
    List MoveOutcome × Nat :=
  removals.foldl (fun st f =>
    if stillExists f.path then (st.1 ++ [MoveOutcome.moved f.path], st.2 + 1)
    else (st.1 ++ [MoveOutcome.vanished f.path], st.2)) ([], 0)

theorem execMoves_fst (stillExists : Nat → Bool) :
    ∀ (removals : List FileRec) (st : List MoveOutcome × Nat),
      (removals.foldl (fun st f =>
        if stillExists f.path then (st.1 ++ [MoveOutcome.moved f.path], st.2 + 1)
        else (st.1 ++ [MoveOutcome.vanished f.path], st.2)) st).1 =
      st.1 ++ removals.map (fun f => if stillExists f.path
        then MoveOutcome.moved f.path else MoveOutcome.vanished f.path) := by
  intro removals
  induction removals with
  | nil => intro st; simp
  | cons f fs ih =>
    intro st
    rw [List.foldl_cons]
    by_cases hf : stillExists f.path
    · rw [if_pos hf, ih]
      simp [hf, List.append_assoc]
    · rw [if_neg hf, ih]
      simp [hf, List.append_assoc]

theorem execMoves_snd (stillExists : Nat → Bool) :
    ∀ (removals : List FileRec) (st : List MoveOutcome × Nat),
      (removals.foldl (fun st f =>
        if stillExists f.path then (st.1 ++ [MoveOutcome.moved f.path], st.2 + 1)
        else (st.1 ++ [MoveOutcome.vanished f.path], st.2)) st).2 =
      st.2 + (removals.filter (fun f => stillExists f.path)).length := by
  intro removals
  induction removals with
  | nil => intro st; simp
  | cons f fs ih =>
    intro st
    rw [List.foldl_cons]
    by_cases hf : stillExists f.path
    · rw [if_pos hf, ih]
      simp [hf, List.filter_cons]
      omega
    · rw [if_neg hf, ih]
      simp [hf, List.filter_cons]

/-- C8.  The execution loop handles a vanished source as its own outcome,
never as a failure of the run: every planned removal produces exactly one
outcome in plan order (so later moves always proceed), the counter counts
exactly the sources still present (a vanished file is not counted as
removed), and a removal whose source is gone yields the distinct
`vanished` outcome. -/
theorem exec_moves_vanished_spec (removals : List FileRec)
    (stillExists : Nat → Bool) :
    (execMoves removals stillExists).1 =
      removals.map (fun f => if stillExists f.path
        then MoveOutcome.moved f.path else MoveOutcome.vanished f.path)
    ∧ (execMoves removals stillExists).1.length = removals.length
    ∧ (execMoves removals stillExists).2 =
        (removals.filter (fun f => stillExists f.path)).length
    ∧ ∀ f ∈ removals, stillExists f.path = false →
        MoveOutcome.vanished f.path ∈ (execMoves removals stillExists).1 := by
  have h1 : (execMoves removals stillExists).1 =
      removals.map (fun f => if stillExists f.path
        then MoveOutcome.moved f.path else MoveOutcome.vanished f.path) := by
    rw [execMoves, execMoves_fst]
    simp
  have h2 : (execMoves removals stillExists).2 =
      (removals.filter (fun f => stillExists f.path)).length := by
    rw [execMoves, execMoves_snd]
    simp
  refine ⟨h1, by rw [h1]; simp, h2, ?_⟩
  intro f hf hgone
  rw [h1]
  refine List.mem_map.mpr ⟨f, hf, ?_⟩
  rw [hgone]
  simp

def c8a : FileRec := ⟨1, some 100, some 7, some ⟨some 1, 0⟩⟩

def c8b : FileRec := ⟨2, some 100, some 7, some ⟨some 2, 0⟩⟩

def c8c : FileRec := ⟨3, some 100, some 7, some ⟨some 3, 0⟩⟩

/-- Witness for C8: with the middle of three planned removals vanished,
its outcome is the distinct `vanished` signal. -/
theorem exec_moves_vanished_spec_witness :
    MoveOutcome.vanished 2 ∈
      (execMoves [c8a, c8b, c8c] (fun p => ! (p == 2))).1 :=
  (exec_moves_vanished_spec [c8a, c8b, c8c] (fun p => ! (p == 2))).2.2.2
    c8b (by decide) (by decide)

end dedup2

end WechatDedup
